import Mathlib

/-!
Shallow embedding of the dependency-resolution core of `debdl` (src/main.py):
the metadata record parser, the dependency-expression parser, the recursive
dependency-closure resolver and the install-order planner, together with
theorems about them.

Strings are processed at the character-list level with structurally recursive
helpers mirroring the Python string operations (`split`, `strip`, ...), so
that every definition evaluates inside the kernel.
-/

/-- Python whitespace characters stripped by `str.strip()` (ASCII range). -/
def isPyWS (c : Char) : Bool :=
  c = ' ' || c = '\t' || c = '\n' || c = '\r' || c = '\x0b' || c = '\x0c'

/-- `l.strip()`: drop whitespace from both ends of a character list. -/
def stripChars (l : List Char) : List Char :=
  ((l.dropWhile isPyWS).reverse.dropWhile isPyWS).reverse

/-- Python `s.split(c)` for a one-character separator: splits on every
occurrence, keeping empty pieces; the empty string yields `[[]]`. -/
def splitCh (c : Char) : List Char → List (List Char)
  | [] => [[]]
  | a :: rest =>
    match splitCh c rest with
    | [] => [[a]]
    | g :: gs => if a = c then [] :: g :: gs else (a :: g) :: gs

/-- Python `line.split(":", 1)` combined with the `":" in line` test:
`none` when the line has no colon, otherwise the parts before and after the
first colon. -/
def breakAtColon : List Char → Option (List Char × List Char)
  | [] => none
  | a :: rest =>
    if a = ':' then some ([], rest)
    else (breakAtColon rest).map (fun p => (a :: p.1, p.2))

/-- A package metadata record: field name to field value, insertion-ordered,
keys unique (Python `dict`). -/
abbrev PkgInfo := List (String × String)

/-- The package index: package name to metadata record (Python `dict`). -/
abbrev Index := List (String × PkgInfo)

/-- Python `d[k]` / `k in d`: first-match association lookup. -/
def alookup {β : Type} : List (String × β) → String → Option β
  | [], _ => none
  | (k', v) :: rest, k => if k' = k then some v else alookup rest k

/-- Python `d[k] = v`: overwrite in place if the key exists, else append. -/
def upsert {β : Type} : List (String × β) → String → β → List (String × β)
  | [], k, v => [(k, v)]
  | (k', v') :: rest, k, v =>
    if k' = k then (k', v) :: rest else (k', v') :: upsert rest k v

/-- The keys of the index (Python `packages` dict keys). -/
def keys (idx : Index) : List String := idx.map Prod.fst

/-- `parse_dependencies`, acting on one comma-separated group:
`None` when the stripped group is empty (skipped), otherwise the name token
of the first `|`-alternative (everything from the first space on, e.g. a
parenthesized version constraint, is discarded). -/
def parseDepGroup (dep : List Char) : Option String :=
  let dep := stripChars dep
  if dep = [] then none
  else
    let alternatives := splitCh '|' dep
    let first_alt := stripChars (alternatives.headD [])
    let pkg := (splitCh ' ' first_alt).headD []
    some (String.mk pkg)

/-- `parse_dependencies(dep_str)` from src/main.py: split on commas, skip
empty groups, and for each group keep the leading name token of the first
`|`-alternative. -/
def parse_dependencies (dep_str : String) : List String :=
  (splitCh ',' dep_str.data).filterMap parseDepGroup

/-- The dependency edges contributed by one metadata record: the parsed
`Depends` field, or `[]` when the record has none. -/
def depsOfInfo (info : PkgInfo) : List String :=
  match alookup info "Depends" with
  | some s => parse_dependencies s
  | none => []

/-- The first-alternative dependencies of a package name in an index:
`[]` when the name is absent or its record has no `Depends` field. -/
def depsOf (idx : Index) (name : String) : List String :=
  match alookup idx name with
  | some info => depsOfInfo info
  | none => []

/-! ### Metadata parser (`parse_packages_file`, per-record line loop) -/

/-- One iteration of the line loop in `parse_packages_file`: the state is the
most recently seen key (Python initialises `key = None`) and the record so
far.  A line starting with a space continues the current value (`if key:`
requires the key to be set and nonempty); otherwise a line with a colon
starts a new key; any other line is ignored. -/
def procLine (acc : Option String × PkgInfo) (line : List Char) : Option String × PkgInfo :=
  match line with
  | ' ' :: _ =>
    match acc.1 with
    | some k =>
      if k = "" then acc
      else
        match alookup acc.2 k with
        | some v => (acc.1, upsert acc.2 k (v ++ " " ++ String.mk (stripChars line)))
        | none => acc
    | none => acc
  | _ =>
    match breakAtColon line with
    | some (k, v) =>
      let key := String.mk (stripChars k)
      (some key, upsert acc.2 key (String.mk (stripChars v)))
    | none => acc

/-- The record built from the lines of one blank-line-delimited entry. -/
def parse_entry (lines : List (List Char)) : PkgInfo :=
  (lines.foldl procLine (none, [])).2

/-- Python `content.split("\n\n")`: split on each non-overlapping occurrence
of two consecutive newlines, left to right. -/
def splitNN : List Char → List (List Char)
  | [] => [[]]
  | [a] => [[a]]
  | a :: b :: rest =>
    if a = '\n' ∧ b = '\n' then [] :: splitNN rest
    else
      match splitNN (b :: rest) with
      | [] => [[a]]
      | g :: gs => (a :: g) :: gs

/-- `parse_packages_file` on already-read text: entries are separated by
blank lines, blank entries are skipped, a record without a `Package` field
is dropped, and a repeated package name overwrites the earlier record.
(Lines are split on `\n`; `str.splitlines()` additionally drops a final
empty line, which the line loop ignores anyway.) -/
def parse_packages_file (content : List Char) : Index :=
  (splitNN content).foldl
    (fun pkgs entry =>
      if stripChars entry = [] then pkgs
      else
        let info := parse_entry (splitCh '\n' entry)
        match alookup info "Package" with
        | some name => upsert pkgs name info
        | none => pkgs)
    []

/-! ### Closure resolver (`resolve_dependencies`) -/

/-- The mutable state threaded through `resolve_dependencies`: the growing
closure `resolved`, the cycle guard `seen`, and the diagnostics printed for
names missing from the index. -/
structure RState where
  resolved : List String
  seen : List String
  warnings : List String
deriving DecidableEq

/-- `resolve_dependencies` with explicit state passing and a recursion-depth
fuel.  Each frame: return if the name is already resolved or already seen;
otherwise mark it seen; if it is absent from the index emit the warning and
return; otherwise recursively resolve every first-alternative dependency and
finally add the name to the closure. -/
def resolveAux (idx : Index) : Nat → String → RState → RState
  | 0, _, st => st
  | fuel + 1, name, st =>
    if name ∈ st.resolved then st
    else if name ∈ st.seen then st
    else
      let st1 : RState := ⟨st.resolved, st.seen ++ [name], st.warnings⟩
      match alookup idx name with
      | none =>
        ⟨st1.resolved, st1.seen,
          st1.warnings ++ ["Warning: " ++ name ++ " not found in package list"]⟩
      | some info =>
        let st2 := (depsOfInfo info).foldl (fun s d => resolveAux idx fuel d s) st1
        ⟨st2.resolved ++ [name], st2.seen, st2.warnings⟩

/-- The fresh state of a top-level `resolve_dependencies` call
(`resolved = set()`, `seen = set()`). -/
def initialRState : RState := ⟨[], [], []⟩

/-- Number of index keys not yet seen: bounds the remaining recursion depth. -/
def unseenCount (idx : Index) (st : RState) : Nat :=
  ((keys idx).filter (fun k => decide (k ∉ st.seen))).length

/-- The full final state of a top-level `resolve_dependencies(name, idx)`
call; `(keys idx).length + 1` fuel always suffices. -/
def resolveState (name : String) (idx : Index) : RState :=
  resolveAux idx ((keys idx).length + 1) name initialRState

/-- `resolve_dependencies(package_name, packages)`: the returned closure,
as the insertion-ordered list of its elements. -/
def resolve_dependencies (name : String) (idx : Index) : List String :=
  (resolveState name idx).resolved

/-! ### Install-order planner (`compute_install_order`) -/

/-- The state of the topological sort: the `visited` marker set and the
output `order`, both insertion-ordered. -/
structure OState where
  visited : List String
  order : List String
deriving DecidableEq

/-- The inner `dfs` of `compute_install_order`, with fuel: skip if already
visited, else mark visited, recurse into the in-closure first-alternative
dependencies, then append the package after them. -/
def dfsAux (idx : Index) (resolved : List String) : Nat → String → OState → OState
  | 0, _, st => st
  | fuel + 1, pkg, st =>
    if pkg ∈ st.visited then st
    else
      let st1 : OState := ⟨st.visited ++ [pkg], st.order⟩
      let st2 := (depsOf idx pkg).foldl
        (fun s dep => if dep ∈ resolved then dfsAux idx resolved fuel dep s else s) st1
      ⟨st2.visited, st2.order ++ [pkg]⟩

/-- `compute_install_order(resolved, packages)`: run `dfs` from every member
of the closure in its iteration order and return the accumulated output;
`resolved.length + 1` fuel always suffices for each call. -/
def compute_install_order (resolved : List String) (idx : Index) : List String :=
  (resolved.foldl
    (fun st pkg => if pkg ∈ st.visited then st
      else dfsAux idx resolved (resolved.length + 1) pkg st)
    ⟨[], []⟩).order

/-- Position of a name in a list (first occurrence; length if absent). -/
def idxOf (a : String) : List String → Nat
  | [] => 0
  | b :: l => if b = a then 0 else idxOf a l + 1

/-! ### Concrete indices used in scenarios and witnesses -/

/-- Scenario B: A and B depend on each other (a dependency cycle). -/
def idxAB : Index := [("A", [("Depends", "B")]), ("B", [("Depends", "A")])]

/-- Alternative selection: A depends on `"C|D"`; C is absent, D is present. -/
def idxCD : Index := [("A", [("Depends", "C|D")]), ("D", [])]

/-- Scenario C: A depends on Z, which is absent from the index. -/
def idxAZ : Index := [("A", [("Depends", "Z")])]

/-- A small acyclic index: A depends on B, B on nothing. -/
def idxAcyc : Index := [("A", [("Depends", "B")]), ("B", [])]

/-! ### Invariants used by the proofs -/

/-- The invariant relating the growing closure, the `seen` guard and the
active recursion path during `resolve_dependencies`: path members are index
keys that are seen but not yet resolved; every seen index key is either
resolved or on the path; and every resolved package has each of its in-index
first-alternative dependencies resolved or on the path. -/
structure RInv (idx : Index) (st : RState) (path : List String) : Prop where
  path_keys : ∀ p ∈ path, p ∈ keys idx
  path_seen : ∀ p ∈ path, p ∈ st.seen
  path_unresolved : ∀ p ∈ path, p ∉ st.resolved
  seen_classified : ∀ s ∈ st.seen, s ∈ keys idx → s ∈ st.resolved ∨ s ∈ path
  resolved_complete : ∀ p ∈ st.resolved, ∀ d ∈ depsOf idx p,
    d ∈ keys idx → d ∈ st.resolved ∨ d ∈ path
  resolved_seen : st.resolved ⊆ st.seen

/-- The post-state facts established by one `resolveAux` call. -/
def RPost (idx : Index) (st st' : RState) (path : List String) (name : String) : Prop :=
  RInv idx st' path ∧
  (∃ e, st'.resolved = st.resolved ++ e) ∧
  (∃ e, st'.seen = st.seen ++ e) ∧
  name ∈ st'.seen ∧
  (name ∈ keys idx → name ∈ st'.resolved ∨ name ∈ path)

/-- Number of closure members not yet visited by the topological sort:
bounds the remaining recursion depth of `dfs`. -/
def unvisitedCount (resolved : List String) (st : OState) : Nat :=
  (resolved.filter (fun x => decide (x ∉ st.visited))).length

/-- Dependency-precedence closedness of an output: every package occurring
in the order has each of its in-closure first-alternative dependencies at a
strictly earlier position. -/
def OrdClosed (idx : Index) (resolved order : List String) : Prop :=
  ∀ l1 p l2, order = l1 ++ p :: l2 → ∀ d ∈ depsOf idx p, d ∈ resolved → d ∈ l1

/-- A ranking certifying that the first-alternative dependency relation
restricted to the closure is acyclic: every in-closure edge strictly
decreases the rank. -/
def RankOK (idx : Index) (resolved : List String) (r : String → Nat) : Prop :=
  ∀ p ∈ resolved, ∀ d ∈ depsOf idx p, d ∈ resolved → r d < r p

/-- The invariant of the topological sort: the visited set is exactly the
output plus the active path, the output has no duplicates, and the output
stays inside the closure. -/
structure OInv (idx : Index) (resolved : List String) (st : OState)
    (path : List String) : Prop where
  classify : ∀ x, x ∈ st.visited ↔ (x ∈ st.order ∨ x ∈ path)
  nodup : st.order.Nodup
  order_resolved : ∀ x ∈ st.order, x ∈ resolved

/-- The post-state facts established by one `dfs` call of the sort. -/
def OPost (idx : Index) (resolved : List String) (r : String → Nat)
    (st st' : OState) (path : List String) (pkg : String) : Prop :=
  OInv idx resolved st' path ∧
  (RankOK idx resolved r → OrdClosed idx resolved st'.order) ∧
  (∃ e, st'.visited = st.visited ++ e) ∧
  (∃ e, st'.order = st.order ++ e) ∧
  (∀ x ∈ st'.order, x ∈ st.order ∨ x ∉ st.visited) ∧
  pkg ∈ st'.visited

/-! ### Generic helpers -/

/-- A fold whose step only ever appends to the component `g` overall appends. -/
theorem foldl_ext {σ α : Type} (f : σ → α → σ) (g : σ → List String)
    (h : ∀ s a, ∃ e, g (f s a) = g s ++ e) :
    ∀ (l : List α) (s : σ), ∃ e, g (l.foldl f s) = g s ++ e := by
  intro l
  induction l with
  | nil => intro s; exact ⟨[], by simp⟩
  | cons a t ih =>
    intro s
    obtain ⟨e2, he2⟩ := ih (f s a)
    obtain ⟨e1, he1⟩ := h s a
    exact ⟨e1 ++ e2, by simp [he2, he1]⟩

/-- Filtering with a stronger predicate keeps at most as many elements. -/
theorem filter_length_mono {p q : String → Bool} (h : ∀ x, q x = true → p x = true) :
    ∀ l : List String, (l.filter q).length ≤ (l.filter p).length := by
  intro l
  induction l with
  | nil => simp
  | cons b t ih =>
    cases hq : q b with
    | true =>
      have hp := h b hq
      simp [List.filter_cons, hq, hp]
      exact ih
    | false =>
      cases hp : p b with
      | true =>
        simp [List.filter_cons, hq, hp]
        exact Nat.le_succ_of_le ih
      | false =>
        simp [List.filter_cons, hq, hp]
        exact ih

/-- Filtering with a strictly stronger predicate that loses a present element
keeps strictly fewer elements. -/
theorem filter_length_lt {p q : String → Bool} (h : ∀ x, q x = true → p x = true)
    (a : String) (hpa : p a = true) (hqa : q a = false) :
    ∀ l : List String, a ∈ l → (l.filter q).length < (l.filter p).length := by
  intro l
  induction l with
  | nil => simp
  | cons b t ih =>
    intro hmem
    rcases List.mem_cons.mp hmem with hba | hmem
    · subst hba
      simp [List.filter_cons, hpa, hqa]
      exact Nat.lt_succ_of_le (filter_length_mono h t)
    · cases hq : q b with
      | true =>
        have hp := h b hq
        simp [List.filter_cons, hq, hp]
        exact ih hmem
      | false =>
        cases hp : p b with
        | true =>
          simp [List.filter_cons, hq, hp]
          exact Nat.lt_succ_of_lt (ih hmem)
        | false =>
          simp [List.filter_cons, hq, hp]
          exact ih hmem

/-- A key has a lookup result exactly when it is among the mapping's keys. -/
theorem alookup_isSome_iff {β : Type} (m : List (String × β)) (k : String) :
    (alookup m k).isSome ↔ k ∈ m.map Prod.fst := by
  induction m with
  | nil => simp [alookup]
  | cons p rest ih =>
    obtain ⟨k', v⟩ := p
    by_cases h : k' = k
    · subst h; simp [alookup]
    · simp [alookup, h, ih, Ne.symm h]

/-- Lookup fails exactly for keys outside the mapping. -/
theorem alookup_eq_none_iff {β : Type} (m : List (String × β)) (k : String) :
    alookup m k = none ↔ k ∉ m.map Prod.fst := by
  rw [← alookup_isSome_iff]
  cases alookup m k <;> simp

/-- After `upsert`, the written key reads back the written value. -/
theorem alookup_upsert_self {β : Type} (m : List (String × β)) (k : String) (v : β) :
    alookup (upsert m k v) k = some v := by
  induction m with
  | nil => simp [upsert, alookup]
  | cons p rest ih =>
    obtain ⟨k', v'⟩ := p
    by_cases h : k' = k
    · subst h; simp [upsert, alookup]
    · simp [upsert, alookup, h, ih]

/-- `upsert` leaves every other key's value unchanged. -/
theorem alookup_upsert_ne {β : Type} (m : List (String × β)) (k k2 : String) (v : β)
    (h : k ≠ k2) : alookup (upsert m k v) k2 = alookup m k2 := by
  induction m with
  | nil => simp [upsert, alookup, h]
  | cons p rest ih =>
    obtain ⟨k', v'⟩ := p
    by_cases h' : k' = k
    · subst h'; simp [upsert, alookup, h]
    · by_cases h2 : k' = k2
      · simp [upsert, alookup, h', h2, Ne.symm h]
      · simp [upsert, alookup, h', h2, ih]

/-! ### Resolver: monotonicity and fuel stability -/

/-- Unfolding `resolveAux` on an already-resolved name: immediate return. -/
theorem resolveAux_of_resolved (idx : Index) (fuel : Nat) (name : String) (st : RState)
    (h1 : name ∈ st.resolved) : resolveAux idx (fuel + 1) name st = st := by
  simp [resolveAux, h1]

/-- Unfolding `resolveAux` on a name on the active path: the cycle cut. -/
theorem resolveAux_of_seen (idx : Index) (fuel : Nat) (name : String) (st : RState)
    (h1 : name ∉ st.resolved) (h2 : name ∈ st.seen) :
    resolveAux idx (fuel + 1) name st = st := by
  simp [resolveAux, h1, h2]

/-- Unfolding `resolveAux` on a fresh name absent from the index: the name is
marked seen, a warning is emitted, and the closure is left unchanged. -/
theorem resolveAux_of_notfound (idx : Index) (fuel : Nat) (name : String) (st : RState)
    (h1 : name ∉ st.resolved) (h2 : name ∉ st.seen) (hl : alookup idx name = none) :
    resolveAux idx (fuel + 1) name st =
      ⟨st.resolved, st.seen ++ [name],
        st.warnings ++ ["Warning: " ++ name ++ " not found in package list"]⟩ := by
  simp [resolveAux, h1, h2, hl]

/-- Unfolding `resolveAux` on a fresh name present in the index: mark seen,
fold over the dependencies, then append the name to the closure. -/
theorem resolveAux_of_found (idx : Index) (fuel : Nat) (name : String) (st : RState)
    (info : PkgInfo) (h1 : name ∉ st.resolved) (h2 : name ∉ st.seen)
    (hl : alookup idx name = some info) :
    resolveAux idx (fuel + 1) name st =
      ⟨((depsOfInfo info).foldl (fun s d => resolveAux idx fuel d s)
          ⟨st.resolved, st.seen ++ [name], st.warnings⟩).resolved ++ [name],
        ((depsOfInfo info).foldl (fun s d => resolveAux idx fuel d s)
          ⟨st.resolved, st.seen ++ [name], st.warnings⟩).seen,
        ((depsOfInfo info).foldl (fun s d => resolveAux idx fuel d s)
          ⟨st.resolved, st.seen ++ [name], st.warnings⟩).warnings⟩ := by
  simp [resolveAux, h1, h2, hl]

/-- The `seen` guard only ever grows during resolution. -/
theorem resolveAux_seen_ext (idx : Index) :
    ∀ (fuel : Nat) (name : String) (st : RState),
      ∃ e, (resolveAux idx fuel name st).seen = st.seen ++ e := by
  intro fuel
  induction fuel with
  | zero => intro name st; exact ⟨[], by simp [resolveAux]⟩
  | succ f ih =>
    intro name st
    by_cases h1 : name ∈ st.resolved
    · exact ⟨[], by simp [resolveAux, h1]⟩
    by_cases h2 : name ∈ st.seen
    · exact ⟨[], by simp [resolveAux, h1, h2]⟩
    cases hl : alookup idx name with
    | none => exact ⟨[name], by simp [resolveAux, h1, h2, hl]⟩
    | some info =>
      obtain ⟨e, he⟩ := foldl_ext (fun s d => resolveAux idx f d s) RState.seen
        (fun s a => ih a s) (depsOfInfo info) ⟨st.resolved, st.seen ++ [name], st.warnings⟩
      exact ⟨[name] ++ e, by simp [resolveAux, h1, h2, hl, he]⟩

/-- A state with more `seen` names has at most as many unseen index keys. -/
theorem unseenCount_le_of_seen_ext (idx : Index) (st st' : RState)
    (h : ∃ e, st'.seen = st.seen ++ e) : unseenCount idx st' ≤ unseenCount idx st := by
  obtain ⟨e, he⟩ := h
  apply filter_length_mono
  intro x hx
  simp only [decide_eq_true_eq] at hx ⊢
  rw [he] at hx
  simp only [List.mem_append, not_or] at hx
  exact hx.1

/-- Marking a fresh index key as seen strictly lowers the unseen count. -/
theorem unseenCount_lt (idx : Index) (st : RState) (name : String)
    (hk : name ∈ keys idx) (hs : name ∉ st.seen) :
    unseenCount idx ⟨st.resolved, st.seen ++ [name], st.warnings⟩ < unseenCount idx st := by
  apply filter_length_lt (a := name) _ _ _ (keys idx) hk
  · intro x hx
    simp only [decide_eq_true_eq] at hx ⊢
    simp only [List.mem_append, not_or] at hx
    exact hx.1
  · simpa using hs
  · simp

/-- With fuel exceeding the count of unseen index keys, one more unit of
fuel does not change the result of resolution. -/
theorem resolveAux_step (idx : Index) :
    ∀ (fuel : Nat) (name : String) (st : RState), unseenCount idx st < fuel →
      resolveAux idx (fuel + 1) name st = resolveAux idx fuel name st := by
  intro fuel
  induction fuel with
  | zero => intro name st h; exact absurd h (Nat.not_lt_zero _)
  | succ f ih =>
    intro name st h
    by_cases h1 : name ∈ st.resolved
    · simp [resolveAux, h1]
    by_cases h2 : name ∈ st.seen
    · simp [resolveAux, h1, h2]
    cases hl : alookup idx name with
    | none => simp [resolveAux, h1, h2, hl]
    | some info =>
      have hk : name ∈ keys idx := by
        have : (alookup idx name).isSome := by rw [hl]; rfl
        exact (alookup_isSome_iff idx name).mp this
      have hlt : unseenCount idx ⟨st.resolved, st.seen ++ [name], st.warnings⟩ < f :=
        Nat.lt_of_lt_of_le (unseenCount_lt idx st name hk h2) (Nat.lt_succ_iff.mp h)
      have hfold : ∀ (deps : List String) (s : RState), unseenCount idx s < f →
          deps.foldl (fun s d => resolveAux idx (f + 1) d s) s
            = deps.foldl (fun s d => resolveAux idx f d s) s := by
        intro deps
        induction deps with
        | nil => intro s _; rfl
        | cons d t iht =>
          intro s hs
          simp only [List.foldl_cons]
          rw [ih d s hs]
          exact iht (resolveAux idx f d s)
            (Nat.lt_of_le_of_lt
              (unseenCount_le_of_seen_ext idx s _ (resolveAux_seen_ext idx f d s)) hs)
      rw [resolveAux_of_found idx (f + 1) name st info h1 h2 hl,
        resolveAux_of_found idx f name st info h1 h2 hl,
        hfold (depsOfInfo info) ⟨st.resolved, st.seen ++ [name], st.warnings⟩ hlt]

/-- Any amount of extra fuel beyond the unseen-key bound is irrelevant. -/
theorem resolveAux_fuel_stable (idx : Index) (name : String) (st : RState)
    (fuel extra : Nat) (h : unseenCount idx st < fuel) :
    resolveAux idx (fuel + extra) name st = resolveAux idx fuel name st := by
  induction extra with
  | zero => rfl
  | succ e ihe =>
    have heq : fuel + (e + 1) = (fuel + e) + 1 := by omega
    rw [heq, resolveAux_step idx (fuel + e) name st
      (Nat.lt_of_lt_of_le h (Nat.le_add_right fuel e)), ihe]

/-! ### Resolver: the traversal invariant -/

/-- Folding `resolveAux` over a dependency list preserves the invariant and
leaves every dependency seen, and resolved-or-on-path when it is an index
key. -/
theorem resolveList_spec (idx : Index) (f : Nat) (path : List String)
    (ih : ∀ (name : String) (st : RState), unseenCount idx st < f → RInv idx st path →
      RPost idx st (resolveAux idx f name st) path name) :
    ∀ (deps : List String) (st : RState), unseenCount idx st < f → RInv idx st path →
      RInv idx (deps.foldl (fun s d => resolveAux idx f d s) st) path ∧
      (∃ e, (deps.foldl (fun s d => resolveAux idx f d s) st).resolved = st.resolved ++ e) ∧
      (∃ e, (deps.foldl (fun s d => resolveAux idx f d s) st).seen = st.seen ++ e) ∧
      (∀ d ∈ deps, d ∈ (deps.foldl (fun s d => resolveAux idx f d s) st).seen ∧
        (d ∈ keys idx →
          d ∈ (deps.foldl (fun s d => resolveAux idx f d s) st).resolved ∨ d ∈ path)) := by
  intro deps
  induction deps with
  | nil =>
    intro st _ hinv
    exact ⟨hinv, ⟨[], by simp⟩, ⟨[], by simp⟩, by simp⟩
  | cons d t iht =>
    intro st h hinv
    obtain ⟨hinv1, ⟨e1, he1⟩, ⟨e2, he2⟩, hdseen, hdres⟩ := ih d st h hinv
    obtain ⟨hinv2, ⟨e3, he3⟩, ⟨e4, he4⟩, hrest⟩ := iht (resolveAux idx f d st)
      (Nat.lt_of_le_of_lt (unseenCount_le_of_seen_ext idx st _ ⟨e2, he2⟩) h) hinv1
    simp only [List.foldl_cons]
    refine ⟨hinv2, ⟨e1 ++ e3, by rw [he3, he1, List.append_assoc]⟩,
      ⟨e2 ++ e4, by rw [he4, he2, List.append_assoc]⟩, ?_⟩
    intro x hx
    rcases List.mem_cons.mp hx with hxd | hx
    · subst hxd
      constructor
      · rw [he4]; exact List.mem_append_left _ hdseen
      · intro hk
        rcases hdres hk with hr | hp
        · exact Or.inl (by rw [he3]; exact List.mem_append_left _ hr)
        · exact Or.inr hp
    · exact hrest x hx

/-- The master lemma about `resolveAux`: with enough fuel it preserves the
traversal invariant, grows the state monotonically, marks the target name
seen, and leaves an in-index target resolved unless it lies on the active
path. -/
theorem resolveAux_spec (idx : Index) :
    ∀ (fuel : Nat) (name : String) (st : RState) (path : List String),
      unseenCount idx st < fuel → RInv idx st path →
      RPost idx st (resolveAux idx fuel name st) path name := by
  intro fuel
  induction fuel with
  | zero => intro name st path h _; exact absurd h (Nat.not_lt_zero _)
  | succ f ih =>
    intro name st path h hinv
    by_cases h1 : name ∈ st.resolved
    · rw [resolveAux_of_resolved idx f name st h1]
      exact ⟨hinv, ⟨[], by simp⟩, ⟨[], by simp⟩, hinv.resolved_seen h1, fun _ => Or.inl h1⟩
    by_cases h2 : name ∈ st.seen
    · rw [resolveAux_of_seen idx f name st h1 h2]
      exact ⟨hinv, ⟨[], by simp⟩, ⟨[], by simp⟩, h2, fun hk => hinv.seen_classified name h2 hk⟩
    cases hl : alookup idx name with
    | none =>
      have hk : name ∉ keys idx := (alookup_eq_none_iff idx name).mp hl
      rw [resolveAux_of_notfound idx f name st h1 h2 hl]
      refine ⟨?_, ⟨[], by simp⟩, ⟨[name], rfl⟩, by simp, fun hk2 => absurd hk2 hk⟩
      exact {
        path_keys := hinv.path_keys
        path_seen := fun p hp => List.mem_append_left _ (hinv.path_seen p hp)
        path_unresolved := hinv.path_unresolved
        seen_classified := fun s hs hk2 => by
          rcases List.mem_append.mp hs with hs | hs
          · exact hinv.seen_classified s hs hk2
          · rw [List.mem_singleton.mp hs] at hk2; exact absurd hk2 hk
        resolved_complete := hinv.resolved_complete
        resolved_seen := fun x hx => List.mem_append_left _ (hinv.resolved_seen hx) }
    | some info =>
      have hk : name ∈ keys idx := (alookup_isSome_iff idx name).mp (by rw [hl]; rfl)
      have hlt : unseenCount idx ⟨st.resolved, st.seen ++ [name], st.warnings⟩ < f :=
        Nat.lt_of_lt_of_le (unseenCount_lt idx st name hk h2) (Nat.lt_succ_iff.mp h)
      have hinv1 : RInv idx ⟨st.resolved, st.seen ++ [name], st.warnings⟩ (path ++ [name]) := {
        path_keys := fun p hp => by
          rcases List.mem_append.mp hp with hp | hp
          · exact hinv.path_keys p hp
          · rw [List.mem_singleton.mp hp]; exact hk
        path_seen := fun p hp => by
          rcases List.mem_append.mp hp with hp | hp
          · exact List.mem_append_left _ (hinv.path_seen p hp)
          · rw [List.mem_singleton.mp hp]; exact List.mem_append_right _ (by simp)
        path_unresolved := fun p hp => by
          rcases List.mem_append.mp hp with hp | hp
          · exact hinv.path_unresolved p hp
          · rw [List.mem_singleton.mp hp]; exact h1
        seen_classified := fun s hs hk2 => by
          rcases List.mem_append.mp hs with hs | hs
          · rcases hinv.seen_classified s hs hk2 with hr | hp
            · exact Or.inl hr
            · exact Or.inr (List.mem_append_left _ hp)
          · exact Or.inr (List.mem_append_right _ hs)
        resolved_complete := fun p hp d hd hk2 => by
          rcases hinv.resolved_complete p hp d hd hk2 with hr | hpp
          · exact Or.inl hr
          · exact Or.inr (List.mem_append_left _ hpp)
        resolved_seen := fun x hx => List.mem_append_left _ (hinv.resolved_seen hx) }
      obtain ⟨hinv2, ⟨e3, he3⟩, ⟨e4, he4⟩, hdeps⟩ :=
        resolveList_spec idx f (path ++ [name])
          (fun nm s hu hi => ih nm s (path ++ [name]) hu hi)
          (depsOfInfo info) ⟨st.resolved, st.seen ++ [name], st.warnings⟩ hlt hinv1
      rw [resolveAux_of_found idx f name st info h1 h2 hl]
      set st2 := (depsOfInfo info).foldl (fun s d => resolveAux idx f d s)
        ⟨st.resolved, st.seen ++ [name], st.warnings⟩ with hst2
      have hnameseen : name ∈ st2.seen := by
        rw [he4]; exact List.mem_append_left _ (List.mem_append_right _ (by simp))
      have hdepsOf : depsOf idx name = depsOfInfo info := by simp [depsOf, hl]
      refine ⟨?_, ⟨e3 ++ [name], by rw [he3]; simp⟩,
        ⟨[name] ++ e4, by rw [he4]; simp⟩, hnameseen, fun _ => Or.inl (by simp)⟩
      exact {
        path_keys := fun p hp => hinv2.path_keys p (List.mem_append_left _ hp)
        path_seen := fun p hp => hinv2.path_seen p (List.mem_append_left _ hp)
        path_unresolved := fun p hp => by
          have hpr : p ∉ st2.resolved := hinv2.path_unresolved p (List.mem_append_left _ hp)
          have hpn : p ≠ name := by
            intro he
            exact h2 (he ▸ hinv.path_seen p hp)
          simp only [List.mem_append, List.mem_singleton]
          rintro (hc | hc)
          · exact hpr hc
          · exact hpn hc
        seen_classified := fun s hs hk2 => by
          rcases hinv2.seen_classified s hs hk2 with hr | hp
          · exact Or.inl (List.mem_append_left _ hr)
          · rcases List.mem_append.mp hp with hp | hp
            · exact Or.inr hp
            · exact Or.inl (List.mem_append_right _ hp)
        resolved_complete := fun p hp d hd hk2 => by
          have hclass : d ∈ st2.resolved ∨ d ∈ path ++ [name] → d ∈ st2.resolved ++ [name] ∨ d ∈ path := by
            rintro (hc | hc)
            · exact Or.inl (List.mem_append_left _ hc)
            · rcases List.mem_append.mp hc with hc | hc
              · exact Or.inr hc
              · exact Or.inl (List.mem_append_right _ hc)
          rcases List.mem_append.mp hp with hp | hp
          · exact hclass (hinv2.resolved_complete p hp d hd hk2)
          · rw [List.mem_singleton.mp hp] at hd
            rw [hdepsOf] at hd
            exact hclass ((hdeps d hd).2 hk2)
        resolved_seen := fun x hx => by
          rcases List.mem_append.mp hx with hx | hx
          · exact hinv2.resolved_seen hx
          · rw [List.mem_singleton.mp hx]; exact hnameseen }

/-! ### Resolver: top-level claims -/

/-- The invariant holds for the fresh state of a top-level call. -/
theorem RInv_initial (idx : Index) : RInv idx initialRState [] := {
  path_keys := by simp
  path_seen := by simp
  path_unresolved := by simp
  seen_classified := by simp [initialRState]
  resolved_complete := by simp [initialRState]
  resolved_seen := by simp [initialRState] }

/-- The master lemma applied to a whole `resolve_dependencies` call, whose
active path is empty. -/
theorem resolveState_spec (name : String) (idx : Index) :
    RPost idx initialRState (resolveState name idx) [] name := by
  unfold resolveState
  exact resolveAux_spec idx ((keys idx).length + 1) name initialRState []
    (by unfold unseenCount; exact Nat.lt_succ_of_le (List.length_filter_le _ _))
    (RInv_initial idx)

/-- C2: for every index and root, every first-alternative dependency `d` of a
closure member `p` with `d` present in the index is itself in the closure
returned by `resolve_dependencies` (the cycle cut only defers membership:
an in-index name on the active path is still added when its frame finishes,
so the claim's "unless" escape is never needed in the final result). -/
theorem resolve_closure_complete (root : String) (idx : Index) (p d : String)
    (hp : p ∈ resolve_dependencies root idx) (hd : d ∈ depsOf idx p)
    (hk : d ∈ keys idx) : d ∈ resolve_dependencies root idx := by
  obtain ⟨hinv, -, -, -, -⟩ := resolveState_spec root idx
  rcases hinv.resolved_complete p hp d hd hk with hr | hpath
  · exact hr
  · simp at hpath

/-- Witness for C2 on a concrete index. -/
theorem resolve_closure_complete_w : "B" ∈ resolve_dependencies "A" idxAcyc :=
  resolve_closure_complete "A" idxAcyc "A" "B" (by decide) (by decide) (by decide)

/-- C3: the root is a member of its own closure whenever it is an index key,
and the closure is empty whenever the root is absent from the index. -/
theorem resolve_root_membership (root : String) (idx : Index) :
    (root ∈ keys idx → root ∈ resolve_dependencies root idx) ∧
    (root ∉ keys idx → resolve_dependencies root idx = []) := by
  constructor
  · intro hk
    obtain ⟨-, -, -, -, hres⟩ := resolveState_spec root idx
    rcases hres hk with hr | hpath
    · exact hr
    · simp at hpath
  · intro hk
    have hl : alookup idx root = none := (alookup_eq_none_iff idx root).mpr hk
    unfold resolve_dependencies resolveState
    rw [resolveAux_of_notfound idx _ root initialRState (by simp [initialRState])
      (by simp [initialRState]) hl]
    rfl

/-- Witness for C3 on a concrete index, both branches. -/
theorem resolve_root_membership_w :
    "A" ∈ resolve_dependencies "A" idxAcyc ∧ resolve_dependencies "Q" idxAcyc = [] :=
  ⟨(resolve_root_membership "A" idxAcyc).1 (by decide),
   (resolve_root_membership "Q" idxAcyc).2 (by decide)⟩

/-- C4: resolution terminates on every index, cyclic ones included: beyond
the unseen-key bound the fuelled recursion is independent of the fuel (the
recursion has reached all its base cases), and on the two-package cycle
`idxAB` the closure from A contains both A and B. -/
theorem resolve_terminates :
    (∀ (idx : Index) (name : String) (st : RState) (fuel extra : Nat),
      unseenCount idx st < fuel →
      resolveAux idx (fuel + extra) name st = resolveAux idx fuel name st) ∧
    ("A" ∈ resolve_dependencies "A" idxAB ∧ "B" ∈ resolve_dependencies "A" idxAB) :=
  ⟨fun idx name st fuel extra h => resolveAux_fuel_stable idx name st fuel extra h,
   by decide, by decide⟩

/-- Witness for C4's fuel-stability on a concrete cyclic index. -/
theorem resolve_terminates_w :
    resolveAux idxAB 7 "A" initialRState = resolveAux idxAB 3 "A" initialRState :=
  resolve_terminates.1 idxAB "A" initialRState 3 4 (by decide)

/-- C5: only the first candidate of an alternative group is a dependency
edge: a `Depends` field `"C|D"` contributes exactly the edge to C, and on
`idxCD` (C absent, D present) the closure of A contains neither C nor D. -/
theorem resolve_first_alternative :
    (∀ (idx : Index) (p : String) (info : PkgInfo),
      alookup idx p = some info → alookup info "Depends" = some "C|D" →
      depsOf idx p = ["C"]) ∧
    ("A" ∈ resolve_dependencies "A" idxCD ∧ "C" ∉ resolve_dependencies "A" idxCD ∧
      "D" ∉ resolve_dependencies "A" idxCD) := by
  constructor
  · intro idx p info hp hd
    simp only [depsOf, hp, depsOfInfo, hd]
    decide
  · exact ⟨by decide, by decide, by decide⟩

/-- Witness for C5's general part on a concrete index. -/
theorem resolve_first_alternative_w : depsOf idxCD "A" = ["C"] :=
  resolve_first_alternative.1 idxCD "A" [("Depends", "C|D")] (by decide) (by decide)

/-- C8: resolving a name absent from the index appends the warning
diagnostic, leaves the closure unchanged, and (being a total function)
raises nothing; on Scenario C's index the closure of A is exactly {A} with
one warning for Z. -/
theorem resolve_missing_dependency :
    (∀ (idx : Index) (name : String) (st : RState) (fuel : Nat),
      name ∉ keys idx → name ∉ st.resolved → name ∉ st.seen →
      (resolveAux idx (fuel + 1) name st).resolved = st.resolved ∧
      (resolveAux idx (fuel + 1) name st).warnings
        = st.warnings ++ ["Warning: " ++ name ++ " not found in package list"]) ∧
    (resolve_dependencies "A" idxAZ = ["A"] ∧
      (resolveState "A" idxAZ).warnings = ["Warning: Z not found in package list"]) := by
  constructor
  · intro idx name st fuel hk h1 h2
    rw [resolveAux_of_notfound idx fuel name st h1 h2 ((alookup_eq_none_iff idx name).mpr hk)]
    exact ⟨rfl, rfl⟩
  · exact ⟨by decide, by decide⟩

/-- Witness for C8's general part on a concrete state. -/
theorem resolve_missing_dependency_w :
    (resolveAux idxAZ 1 "Q" initialRState).resolved = [] ∧
    (resolveAux idxAZ 1 "Q" initialRState).warnings
      = ["Warning: Q not found in package list"] :=
  resolve_missing_dependency.1 idxAZ "Q" initialRState 0 (by decide) (by decide) (by decide)

/-- C9: `resolve_dependencies` is a pure function of its arguments, so two
calls with the same arguments are equal; moreover re-resolving the root on
top of a completed state is the identity (the `in resolved` fast path). -/
theorem resolve_idempotent (root : String) (idx : Index) :
    resolve_dependencies root idx = resolve_dependencies root idx ∧
    (root ∈ resolve_dependencies root idx →
      ∀ fuel : Nat, resolveAux idx (fuel + 1) root (resolveState root idx)
        = resolveState root idx) :=
  ⟨rfl, fun hr fuel => resolveAux_of_resolved idx fuel root (resolveState root idx) hr⟩

/-- Witness for C9's fast-path part on a concrete index. -/
theorem resolve_idempotent_w :
    resolveAux idxAB 1 "A" (resolveState "A" idxAB) = resolveState "A" idxAB :=
  (resolve_idempotent "A" idxAB).2 (by decide) 0

/-- C10: a nonempty comma group whose first `|`-alternative is empty yields
the empty string as a package name instead of being skipped. -/
theorem parse_dependencies_empty_alternative :
    parse_dependencies " |b" = [""] ∧ parse_dependencies "a, |b" = ["a", ""] ∧
    "" ∈ parse_dependencies " |b" :=
  ⟨by decide, by decide, by decide⟩

/-! ### Planner: branch lemmas and counting -/

/-- Unfolding `dfs` on an already-visited package: immediate return. -/
theorem dfsAux_of_visited (idx : Index) (resolved : List String) (fuel : Nat)
    (pkg : String) (st : OState) (h : pkg ∈ st.visited) :
    dfsAux idx resolved (fuel + 1) pkg st = st := by
  simp [dfsAux, h]

/-- Unfolding `dfs` on a fresh package: mark visited, fold over the
in-closure dependencies, then append the package to the output. -/
theorem dfsAux_of_fresh (idx : Index) (resolved : List String) (fuel : Nat)
    (pkg : String) (st : OState) (h : pkg ∉ st.visited) :
    dfsAux idx resolved (fuel + 1) pkg st =
      ⟨((depsOf idx pkg).foldl
          (fun s dep => if dep ∈ resolved then dfsAux idx resolved fuel dep s else s)
          ⟨st.visited ++ [pkg], st.order⟩).visited,
        ((depsOf idx pkg).foldl
          (fun s dep => if dep ∈ resolved then dfsAux idx resolved fuel dep s else s)
          ⟨st.visited ++ [pkg], st.order⟩).order ++ [pkg]⟩ := by
  simp [dfsAux, h]

/-- A state with more visited members has at most as many unvisited ones. -/
theorem unvisitedCount_le_of_visited_ext (resolved : List String) (st st' : OState)
    (h : ∃ e, st'.visited = st.visited ++ e) :
    unvisitedCount resolved st' ≤ unvisitedCount resolved st := by
  obtain ⟨e, he⟩ := h
  apply filter_length_mono
  intro x hx
  simp only [decide_eq_true_eq] at hx ⊢
  rw [he] at hx
  simp only [List.mem_append, not_or] at hx
  exact hx.1

/-- Visiting a fresh closure member strictly lowers the unvisited count. -/
theorem unvisitedCount_lt (resolved : List String) (st : OState) (pkg : String)
    (hk : pkg ∈ resolved) (hv : pkg ∉ st.visited) :
    unvisitedCount resolved ⟨st.visited ++ [pkg], st.order⟩ < unvisitedCount resolved st := by
  apply filter_length_lt (a := pkg) _ _ _ resolved hk
  · intro x hx
    simp only [decide_eq_true_eq] at hx ⊢
    simp only [List.mem_append, not_or] at hx
    exact hx.1
  · simpa using hv
  · simp

/-- Decomposing an equality `l ++ [p] = l1 ++ q :: l2`: either `q` is the
final appended element, or `q` occurs inside `l`. -/
theorem append_singleton_split {α : Type} (l l1 l2 : List α) (p q : α)
    (h : l ++ [p] = l1 ++ q :: l2) :
    (l2 = [] ∧ l1 = l ∧ q = p) ∨ (∃ l2', l2 = l2' ++ [p] ∧ l = l1 ++ q :: l2') := by
  rcases List.eq_nil_or_concat l2 with h2 | ⟨l2', a, h2⟩
  · subst h2
    have hlen : l.length = l1.length := by
      have hc := congrArg List.length h
      simp at hc
      omega
    obtain ⟨h3, h4⟩ := List.append_inj h hlen
    have hqp : q = p := by simpa using h4.symm
    exact Or.inl ⟨rfl, h3.symm, hqp⟩
  · subst h2
    have h' : l ++ [p] = (l1 ++ q :: l2') ++ [a] := by
      rw [h]; simp
    have hlen : l.length = (l1 ++ q :: l2').length := by
      have hc := congrArg List.length h'
      simp at hc
      simp
      omega
    obtain ⟨h3, h4⟩ := List.append_inj h' hlen
    have hap : p = a := by simpa using h4
    exact Or.inr ⟨l2', by rw [hap]; exact List.concat_eq_append _ _, h3⟩

/-! ### Planner: the traversal invariant -/

/-- Folding `dfs` over a dependency list preserves the invariant and leaves
every in-closure dependency visited. -/
theorem dfsList_spec (idx : Index) (resolved : List String) (r : String → Nat)
    (f : Nat) (path : List String)
    (ih : ∀ (pkg : String) (st : OState) (path' : List String),
      unvisitedCount resolved st < f → pkg ∈ resolved →
      OInv idx resolved st path' →
      (RankOK idx resolved r → OrdClosed idx resolved st.order) →
      (RankOK idx resolved r → ∀ x ∈ path', r pkg < r x) →
      OPost idx resolved r st (dfsAux idx resolved f pkg st) path' pkg) :
    ∀ (deps : List String) (st : OState),
      unvisitedCount resolved st < f →
      OInv idx resolved st path →
      (RankOK idx resolved r → OrdClosed idx resolved st.order) →
      (RankOK idx resolved r → ∀ d ∈ deps, d ∈ resolved → ∀ x ∈ path, r d < r x) →
      OInv idx resolved
        (deps.foldl (fun s dep => if dep ∈ resolved then dfsAux idx resolved f dep s else s) st)
        path ∧
      (RankOK idx resolved r → OrdClosed idx resolved
        (deps.foldl (fun s dep => if dep ∈ resolved then dfsAux idx resolved f dep s else s) st).order) ∧
      (∃ e, (deps.foldl (fun s dep => if dep ∈ resolved then dfsAux idx resolved f dep s else s) st).visited
        = st.visited ++ e) ∧
      (∃ e, (deps.foldl (fun s dep => if dep ∈ resolved then dfsAux idx resolved f dep s else s) st).order
        = st.order ++ e) ∧
      (∀ x ∈ (deps.foldl (fun s dep => if dep ∈ resolved then dfsAux idx resolved f dep s else s) st).order,
        x ∈ st.order ∨ x ∉ st.visited) ∧
      (∀ d ∈ deps, d ∈ resolved →
        d ∈ (deps.foldl (fun s dep => if dep ∈ resolved then dfsAux idx resolved f dep s else s) st).visited) := by
  intro deps
  induction deps with
  | nil =>
    intro st _ hinv hOrd _
    exact ⟨hinv, hOrd, ⟨[], by simp⟩, ⟨[], by simp⟩, fun x hx => Or.inl hx, by simp⟩
  | cons d t iht =>
    intro st huv hinv hOrd hrank
    simp only [List.foldl_cons]
    by_cases hdres : d ∈ resolved
    · simp only [if_pos hdres]
      obtain ⟨hinv1, hOrd1, ⟨v1, hv1⟩, ⟨o1, ho1⟩, hnov1, hdv1⟩ :=
        ih d st path huv hdres hinv hOrd
          (fun hr => hrank hr d (List.mem_cons_self d t) hdres)
      obtain ⟨hinv2, hOrd2, ⟨v2, hv2⟩, ⟨o2, ho2⟩, hnov2, hdv2⟩ :=
        iht (dfsAux idx resolved f d st)
          (Nat.lt_of_le_of_lt
            (unvisitedCount_le_of_visited_ext resolved st _ ⟨v1, hv1⟩) huv)
          hinv1 hOrd1
          (fun hr d' hd' hres' => hrank hr d' (List.mem_cons_of_mem d hd') hres')
      refine ⟨hinv2, hOrd2, ⟨v1 ++ v2, by rw [hv2, hv1, List.append_assoc]⟩,
        ⟨o1 ++ o2, by rw [ho2, ho1, List.append_assoc]⟩, ?_, ?_⟩
      · intro x hx
        rcases hnov2 x hx with hx2 | hx2
        · rcases hnov1 x hx2 with hx1 | hx1
          · exact Or.inl hx1
          · exact Or.inr hx1
        · refine Or.inr (fun hc => hx2 ?_)
          rw [hv1]
          exact List.mem_append_left _ hc
      · intro d' hd' hres'
        rcases List.mem_cons.mp hd' with hdd | hd'
        · subst hdd
          rw [hv2]
          exact List.mem_append_left _ hdv1
        · exact hdv2 d' hd' hres'
    · simp only [if_neg hdres]
      obtain ⟨hinv2, hOrd2, hve, hoe, hnov2, hdv2⟩ :=
        iht st huv hinv hOrd
          (fun hr d' hd' hres' => hrank hr d' (List.mem_cons_of_mem d hd') hres')
      refine ⟨hinv2, hOrd2, hve, hoe, hnov2, ?_⟩
      intro d' hd' hres'
      rcases List.mem_cons.mp hd' with hdd | hd'
      · subst hdd; exact absurd hres' hdres
      · exact hdv2 d' hd' hres'

/-- The master lemma about `dfs`: with enough fuel it preserves the sort
invariant, appends monotonically to both components, produces only freshly
visited output entries, keeps the output dependency-closed whenever the
in-closure dependency relation admits a rank, and leaves the target
visited. -/
theorem dfsAux_spec (idx : Index) (resolved : List String) (r : String → Nat) :
    ∀ (fuel : Nat) (pkg : String) (st : OState) (path : List String),
      unvisitedCount resolved st < fuel → pkg ∈ resolved →
      OInv idx resolved st path →
      (RankOK idx resolved r → OrdClosed idx resolved st.order) →
      (RankOK idx resolved r → ∀ x ∈ path, r pkg < r x) →
      OPost idx resolved r st (dfsAux idx resolved fuel pkg st) path pkg := by
  intro fuel
  induction fuel with
  | zero => intro pkg st path h _ _ _ _; exact absurd h (Nat.not_lt_zero _)
  | succ f ih =>
    intro pkg st path h hres hinv hOrd hrank
    by_cases hv : pkg ∈ st.visited
    · rw [dfsAux_of_visited idx resolved f pkg st hv]
      exact ⟨hinv, hOrd, ⟨[], by simp⟩, ⟨[], by simp⟩, fun x hx => Or.inl hx, hv⟩
    · have hlt1 : unvisitedCount resolved ⟨st.visited ++ [pkg], st.order⟩ < f :=
        Nat.lt_of_lt_of_le (unvisitedCount_lt resolved st pkg hres hv) (Nat.lt_succ_iff.mp h)
      have hinv1 : OInv idx resolved ⟨st.visited ++ [pkg], st.order⟩ (path ++ [pkg]) := {
        classify := fun x => by
          constructor
          · intro hx
            rcases List.mem_append.mp hx with hx | hx
            · rcases (hinv.classify x).mp hx with hx | hx
              · exact Or.inl hx
              · exact Or.inr (List.mem_append_left _ hx)
            · exact Or.inr (List.mem_append_right _ hx)
          · rintro (hx | hx)
            · exact List.mem_append_left _ ((hinv.classify x).mpr (Or.inl hx))
            · rcases List.mem_append.mp hx with hx | hx
              · exact List.mem_append_left _ ((hinv.classify x).mpr (Or.inr hx))
              · exact List.mem_append_right _ hx
        nodup := hinv.nodup
        order_resolved := hinv.order_resolved }
      have hrankdeps : RankOK idx resolved r → ∀ d ∈ depsOf idx pkg, d ∈ resolved →
          ∀ x ∈ path ++ [pkg], r d < r x := by
        intro hr d hd hdres x hx
        have hdp : r d < r pkg := hr pkg hres d hd hdres
        rcases List.mem_append.mp hx with hx | hx
        · exact Nat.lt_trans hdp (hrank hr x hx)
        · rw [List.mem_singleton.mp hx]; exact hdp
      obtain ⟨hinv2, hOrd2, ⟨v2, hv2⟩, ⟨o2, ho2⟩, hnov2, hdeps2⟩ :=
        dfsList_spec idx resolved r f (path ++ [pkg]) (fun pk s pa => ih pk s pa)
          (depsOf idx pkg) ⟨st.visited ++ [pkg], st.order⟩ hlt1 hinv1 hOrd hrankdeps
      rw [dfsAux_of_fresh idx resolved f pkg st hv]
      set st2 := (depsOf idx pkg).foldl
        (fun s dep => if dep ∈ resolved then dfsAux idx resolved f dep s else s)
        ⟨st.visited ++ [pkg], st.order⟩ with hst2
      have hpkg_st2vis : pkg ∈ st2.visited := by
        rw [hv2]
        exact List.mem_append_left _ (List.mem_append_right _ (by simp))
      have hpkg_not_order2 : pkg ∉ st2.order := by
        intro hmem
        rcases hnov2 pkg hmem with hc | hc
        · exact hv ((hinv.classify pkg).mpr (Or.inl hc))
        · exact hc (List.mem_append_right _ (by simp))
      refine ⟨?_, ?_, ⟨[pkg] ++ v2, by rw [hv2]; simp⟩, ⟨o2 ++ [pkg], by rw [ho2]; simp⟩, ?_, hpkg_st2vis⟩
      · exact {
          classify := fun x => by
            constructor
            · intro hx
              rcases (hinv2.classify x).mp hx with hx | hx
              · exact Or.inl (List.mem_append_left _ hx)
              · rcases List.mem_append.mp hx with hx | hx
                · exact Or.inr hx
                · exact Or.inl (List.mem_append_right _ hx)
            · rintro (hx | hx)
              · rcases List.mem_append.mp hx with hx | hx
                · exact (hinv2.classify x).mpr (Or.inl hx)
                · exact (hinv2.classify x).mpr (Or.inr (List.mem_append_right _ hx))
              · exact (hinv2.classify x).mpr (Or.inr (List.mem_append_left _ hx))
          nodup := by
            refine List.Nodup.append hinv2.nodup (List.nodup_singleton pkg) ?_
            intro a ha hb
            rw [List.mem_singleton.mp hb] at ha
            exact hpkg_not_order2 ha
          order_resolved := fun x hx => by
            rcases List.mem_append.mp hx with hx | hx
            · exact hinv2.order_resolved x hx
            · rw [List.mem_singleton.mp hx]; exact hres }
      · intro hr
        intro l1 q l2 heq d hd hdres
        rcases append_singleton_split st2.order l1 l2 pkg q heq with ⟨-, h1eq, hqp⟩ | ⟨l2', -, hleq⟩
        · subst hqp
          have hdv : d ∈ st2.visited := hdeps2 d hd hdres
          rcases (hinv2.classify d).mp hdv with hdo | hdp
          · rw [h1eq]; exact hdo
          · exact absurd (hrankdeps hr d hd hdres d hdp) (Nat.lt_irrefl _)
        · exact hOrd2 hr l1 q l2' hleq d hd hdres
      · intro x hx
        rcases List.mem_append.mp hx with hx | hx
        · rcases hnov2 x hx with hc | hc
          · exact Or.inl hc
          · refine Or.inr (fun hm => hc (List.mem_append_left _ hm))
        · rw [List.mem_singleton.mp hx]
          exact Or.inr hv

/-- The sort invariant holds for the empty starting state. -/
theorem OInv_initial (idx : Index) (resolved : List String) :
    OInv idx resolved ⟨[], []⟩ [] := {
  classify := fun x => by simp
  nodup := List.nodup_nil
  order_resolved := by simp }

/-- The empty output is trivially dependency-closed. -/
theorem OrdClosed_nil (idx : Index) (resolved : List String) :
    OrdClosed idx resolved ([] : List String) := by
  intro l1 p l2 heq
  cases l1 <;> simp at heq

/-- The outer loop of `compute_install_order`: starting from any state with
an empty active path, it preserves the invariant and visits every processed
closure member. -/
theorem orderLoop_spec (idx : Index) (resolved : List String) (r : String → Nat) :
    ∀ (pkgs : List String) (st : OState),
      (∀ x ∈ pkgs, x ∈ resolved) →
      OInv idx resolved st [] →
      (RankOK idx resolved r → OrdClosed idx resolved st.order) →
      OInv idx resolved
        (pkgs.foldl (fun s pkg => if pkg ∈ s.visited then s
          else dfsAux idx resolved (resolved.length + 1) pkg s) st) [] ∧
      (RankOK idx resolved r → OrdClosed idx resolved
        (pkgs.foldl (fun s pkg => if pkg ∈ s.visited then s
          else dfsAux idx resolved (resolved.length + 1) pkg s) st).order) ∧
      (∃ e, (pkgs.foldl (fun s pkg => if pkg ∈ s.visited then s
          else dfsAux idx resolved (resolved.length + 1) pkg s) st).visited
        = st.visited ++ e) ∧
      (∀ pkg ∈ pkgs, pkg ∈ (pkgs.foldl (fun s pkg => if pkg ∈ s.visited then s
          else dfsAux idx resolved (resolved.length + 1) pkg s) st).visited) := by
  intro pkgs
  induction pkgs with
  | nil =>
    intro st _ hinv hOrd
    exact ⟨hinv, hOrd, ⟨[], by simp⟩, by simp⟩
  | cons pkg t iht =>
    intro st hall hinv hOrd
    simp only [List.foldl_cons]
    by_cases hv : pkg ∈ st.visited
    · simp only [if_pos hv]
      obtain ⟨hinv2, hOrd2, ⟨v2, hv2⟩, hall2⟩ :=
        iht st (fun x hx => hall x (List.mem_cons_of_mem pkg hx)) hinv hOrd
      refine ⟨hinv2, hOrd2, ⟨v2, hv2⟩, ?_⟩
      intro x hx
      rcases List.mem_cons.mp hx with hxp | hx
      · subst hxp
        rw [hv2]
        exact List.mem_append_left _ hv
      · exact hall2 x hx
    · simp only [if_neg hv]
      have huv : unvisitedCount resolved st < resolved.length + 1 := by
        unfold unvisitedCount
        exact Nat.lt_succ_of_le (List.length_filter_le _ _)
      obtain ⟨hinv1, hOrd1, ⟨v1, hv1⟩, -, -, hpv1⟩ :=
        dfsAux_spec idx resolved r (resolved.length + 1) pkg st []
          huv (hall pkg (List.mem_cons_self pkg t)) hinv hOrd (fun _ => by simp)
      obtain ⟨hinv2, hOrd2, ⟨v2, hv2⟩, hall2⟩ :=
        iht (dfsAux idx resolved (resolved.length + 1) pkg st)
          (fun x hx => hall x (List.mem_cons_of_mem pkg hx)) hinv1 hOrd1
      refine ⟨hinv2, hOrd2, ⟨v1 ++ v2, by rw [hv2, hv1, List.append_assoc]⟩, ?_⟩
      intro x hx
      rcases List.mem_cons.mp hx with hxp | hx
      · subst hxp
        rw [hv2]
        exact List.mem_append_left _ hpv1
      · exact hall2 x hx

/-! ### Planner: positions in the output -/

/-- A member of the left part of an append sits at a position below the left
part's length. -/
theorem idxOf_lt_of_mem_left (d : String) (l1 rest : List String) (h : d ∈ l1) :
    idxOf d (l1 ++ rest) < l1.length := by
  induction l1 with
  | nil => simp at h
  | cons b t ih =>
    by_cases hb : b = d
    · simp [idxOf, hb]
    · rcases List.mem_cons.mp h with h2 | h2
      · exact absurd h2.symm hb
      · simp only [List.cons_append, idxOf, if_neg hb, List.length_cons]
        exact Nat.succ_lt_succ (ih h2)

/-- The position of an element absent from the left part of a split is the
left part's length. -/
theorem idxOf_append_cons_self (p : String) (l1 l2 : List String) (h : p ∉ l1) :
    idxOf p (l1 ++ p :: l2) = l1.length := by
  induction l1 with
  | nil => simp [idxOf]
  | cons b t ih =>
    have hb : b ≠ p := fun he => h (he ▸ List.mem_cons_self b t)
    simp only [List.cons_append, idxOf, if_neg hb, List.length_cons]
    exact congrArg (· + 1) (ih (fun hm => h (List.mem_cons_of_mem b hm)))

/-- In a duplicate-free split, the distinguished element avoids the left
part. -/
theorem not_mem_left_of_nodup_split (p : String) (l1 l2 : List String)
    (h : (l1 ++ p :: l2).Nodup) : p ∉ l1 := by
  intro hp
  rcases List.nodup_append.mp h with ⟨-, -, hdisj⟩
  exact hdisj hp (List.mem_cons_self p l2)

/-! ### Planner: top-level claims -/

/-- C6: for every duplicate-free closure and every index, the output of
`compute_install_order` is a permutation of the closure. -/
theorem install_order_permutation (closure : List String) (idx : Index)
    (hnd : closure.Nodup) : (compute_install_order closure idx).Perm closure := by
  obtain ⟨hinv, -, -, hall⟩ := orderLoop_spec idx closure (fun _ => 0) closure ⟨[], []⟩
    (fun x hx => hx) (OInv_initial idx closure) (fun _ => OrdClosed_nil idx closure)
  unfold compute_install_order
  rw [List.perm_ext_iff_of_nodup hinv.nodup hnd]
  intro a
  constructor
  · intro ha
    exact hinv.order_resolved a ha
  · intro ha
    rcases (hinv.classify a).mp (hall a ha) with h | h
    · exact h
    · simp at h

/-- Witness for C6 on a concrete closure and index. -/
theorem install_order_permutation_w :
    (compute_install_order ["B", "A"] idxAcyc).Perm ["B", "A"] :=
  install_order_permutation ["B", "A"] idxAcyc (by decide)

/-- C1 (amended): when the first-alternative dependency relation restricted
to the closure is acyclic — witnessed by a ranking that strictly decreases
along every in-closure edge — `compute_install_order` places every
in-closure dependency strictly before its dependent. -/
theorem install_order_respects_deps (closure : List String) (idx : Index)
    (r : String → Nat) (p d : String) (hrank : RankOK idx closure r)
    (hp : p ∈ closure) (hd : d ∈ depsOf idx p) (hdc : d ∈ closure) :
    idxOf d (compute_install_order closure idx)
      < idxOf p (compute_install_order closure idx) := by
  obtain ⟨hinv, hOrdC, -, hall⟩ := orderLoop_spec idx closure r closure ⟨[], []⟩
    (fun x hx => hx) (OInv_initial idx closure) (fun _ => OrdClosed_nil idx closure)
  have hOC := hOrdC hrank
  have hpo : p ∈ (closure.foldl (fun s pkg => if pkg ∈ s.visited then s
      else dfsAux idx closure (closure.length + 1) pkg s) ⟨[], []⟩).order := by
    rcases (hinv.classify p).mp (hall p hp) with h | h
    · exact h
    · simp at h
  obtain ⟨l1, l2, hdecomp⟩ := List.append_of_mem hpo
  have hdl1 : d ∈ l1 := hOC l1 p l2 hdecomp d hd hdc
  have hnp : p ∉ l1 := not_mem_left_of_nodup_split p l1 l2 (hdecomp ▸ hinv.nodup)
  unfold compute_install_order
  rw [hdecomp, idxOf_append_cons_self p l1 l2 hnp]
  exact idxOf_lt_of_mem_left d l1 (p :: l2) hdl1

/-- Witness for C1's amended statement on a concrete acyclic closure. -/
theorem install_order_respects_deps_w :
    idxOf "B" (compute_install_order ["B", "A"] idxAcyc)
      < idxOf "A" (compute_install_order ["B", "A"] idxAcyc) :=
  install_order_respects_deps ["B", "A"] idxAcyc (fun s => if s = "A" then 1 else 0)
    "A" "B" (by unfold RankOK; decide) (by decide) (by decide) (by decide)

/-- C1 counterexample: on the cyclic index `idxAB` and the closure actually
produced by `resolve_dependencies("A")`, B is a first-alternative dependency
of A with both in the closure, yet the computed order does not place B
strictly before A. -/
theorem install_order_cycle_cex :
    "B" ∈ depsOf idxAB "A" ∧ "A" ∈ resolve_dependencies "A" idxAB ∧
    "B" ∈ resolve_dependencies "A" idxAB ∧
    ¬ idxOf "B" (compute_install_order (resolve_dependencies "A" idxAB) idxAB)
        < idxOf "A" (compute_install_order (resolve_dependencies "A" idxAB) idxAB) := by
  decide

/-! ### Metadata parser: continuation-line claims -/

/-- C7 counterexample: a line that begins with whitespace other than a space
(here a tab) and has no colon is silently ignored by the parser instead of
being appended to the most recently seen key's value: after the record
`Package: a` / `K: v` / `<tab>c`, the value of `K` is `"v"`, not `"v c"`. -/
theorem parser_continuation_cex :
    alookup (parse_entry [("Package: a").data, ("K: v").data, ("\tc").data]) "K" = some "v" ∧
    alookup (parse_entry [("Package: a").data, ("K: v").data, ("\tc").data]) "K" ≠ some "v c" := by
  decide

/-- C7 (amended): within a record, continuation lines begin with a space
character (not arbitrary whitespace) and append a single space plus their
trimmed content to the value of the most recently seen key, provided that
key exists and is nonempty; a line that neither begins with a space nor
contains a colon, and a space-initial line whose record has no preceding
nonempty key, are silently ignored. -/
theorem parser_continuation (key : String) (info : PkgInfo) (v : String)
    (c : Char) (cs rest : List Char) (acc : Option String × PkgInfo) :
    (key ≠ "" → alookup info key = some v →
      procLine (some key, info) (' ' :: rest)
        = (some key, upsert info key (v ++ " " ++ String.mk (stripChars (' ' :: rest))))) ∧
    (c ≠ ' ' → breakAtColon (c :: cs) = none → procLine acc (c :: cs) = acc) ∧
    (procLine acc [] = acc) ∧
    (procLine (none, info) (' ' :: rest) = (none, info)) ∧
    (procLine (some "", info) (' ' :: rest) = (some "", info)) ∧
    alookup (parse_entry [("Package: a").data, ("K: v").data, (" c").data]) "K"
      = some "v c" := by
  refine ⟨?_, ?_, ?_, ?_, ?_, by decide⟩
  · intro hk hv
    simp [procLine, hk, hv]
  · intro hc hcolon
    simp [procLine, hc, hcolon]
  · rfl
  · simp [procLine]
  · simp [procLine]

/-- Witness for C7's amended statement: a concrete continuation append and a
concrete ignored line. -/
theorem parser_continuation_w :
    procLine (some "K", ([("K", "v")] : PkgInfo)) (' ' :: ['c'])
      = (some "K", upsert [("K", "v")] "K" ("v" ++ " " ++ String.mk (stripChars (' ' :: ['c'])))) ∧
    procLine (some "K", ([("K", "v")] : PkgInfo)) ['x'] = (some "K", [("K", "v")]) :=
  ⟨(parser_continuation "K" [("K", "v")] "v" 'x' ['x'] ['c']
      (some "K", [("K", "v")])).1 (by decide) (by decide),
    (parser_continuation "K" [("K", "v")] "v" 'x' ['x'] ['c']
      (some "K", [("K", "v")])).2.1 (by decide) (by decide)⟩
